import Mathlib

/-!
Verification of the `iprange` package: a value type for contiguous IPv4/IPv6
address ranges with construction-time validation, membership testing, size
computation and canonical string rendering.

The Go sources are embedded shallowly: `net.IP` byte slices become lists of
bytes (`Fin 256`), the `Range` interface with its two implementations becomes
an inductive type with two constructors, `bytes.Compare` becomes a
lexicographic comparison returning `Ordering`, and `*big.Int` results become
`Int`.
-/

namespace IPRange

/-- A byte, as stored in a Go byte slice. -/
abbrev Byte := Fin 256

/-- Embedding of Go `net.IP`: a byte slice holding either the 4-byte IPv4
form, the 16-byte IPv6 form, or arbitrary (invalid) content. -/
abbrev IP := List Byte

/-- Embedding of Go `bytes.Compare`: lexicographic comparison of byte slices;
a proper prefix is smaller than the longer slice. -/
def bytesCompare : IP → IP → Ordering
  | [], [] => .eq
  | [], _ :: _ => .lt
  | _ :: _, [] => .gt
  | a :: as, b :: bs =>
    if a.val < b.val then .lt
    else if b.val < a.val then .gt
    else bytesCompare as bs

/-- The 12 leading bytes of an IPv4-mapped IPv6 address
(Go `v4InV6Prefix`; renamed to satisfy local naming conventions). -/
def v4InV6Lead : IP := [0, 0, 0, 0, 0, 0, 0, 0, 0, 0, 0xff, 0xff]

/-- Embedding of Go `isZeros`: all bytes are zero. -/
def isZeros (l : IP) : Bool := l.all (fun b => b.val == 0)

/-- Embedding of Go `net.IP.To4`: the 4-byte form of an IPv4 address
(either already 4 bytes long, or in IPv4-mapped 16-byte form), `none`
otherwise (Go returns `nil`). -/
def to4 (ip : IP) : Option IP :=
  if ip.length == 4 then some ip
  else if ip.length == 16 && isZeros (ip.take 10)
      && ip.getD 10 0 == (0xff : Byte) && ip.getD 11 0 == (0xff : Byte) then
    some (ip.drop 12)
  else none

/-- Embedding of Go `net.IP.To16`: the 16-byte form of an address, `none`
(Go `nil`) if the slice has an invalid length. -/
def to16 (ip : IP) : Option IP :=
  if ip.length == 4 then some (v4InV6Lead ++ ip)
  else if ip.length == 16 then some ip
  else none

/-- Modelled from the spec: `isV4RangeValid` is called by `New` but its
definition is not among the provided sources.  Per spec §4.1 step 1, both
`start` and `end` must be valid IPv4 addresses (4-byte representable) and
`start <= end` must hold under byte-wise comparison of their 4-byte forms. -/
def isV4RangeValid (s e : IP) : Bool :=
  match to4 s, to4 e with
  | some s4, some e4 => bytesCompare s4 e4 != Ordering.gt
  | _, _ => false

/-- Modelled from the spec: `isV6RangeValid` is called by `New` but its
definition is not among the provided sources.  Per spec §4.1 step 2, both
`start` and `end` must be true IPv6 addresses (16-byte representable and not
also representable as IPv4) and `start <= end` must hold under byte-wise
comparison of their 16-byte forms. -/
def isV6RangeValid (s e : IP) : Bool :=
  match to4 s, to16 s, to4 e, to16 e with
  | none, some s16, none, some e16 => bytesCompare s16 e16 != Ordering.gt
  | _, _, _, _ => false

/-- Embedding of Go `Family`: the address family of a range. -/
inductive Family where
  | V4Family
  | V6Family
deriving DecidableEq, Repr

/-- Embedding of the Go `Range` interface together with its two
implementations `v4Range` and `v6Range`: a closed sum of the two variants,
each holding the `Start` and `End` boundary slices exactly as supplied. -/
inductive Range where
  | v4Range (Start : IP) (End : IP)
  | v6Range (Start : IP) (End : IP)
deriving DecidableEq, Repr

/-- Embedding of Go `New`: validate and select the variant; the Go `nil`
sentinel for an invalid range becomes `none`. -/
def New (s e : IP) : Option Range :=
  if isV4RangeValid s e then some (.v4Range s e)
  else if isV6RangeValid s e then some (.v6Range s e)
  else none

/-- The stored `Start` field of either variant. -/
def Range.startIP : Range → IP
  | .v4Range s _ => s
  | .v6Range s _ => s

/-- The stored `End` field of either variant. -/
def Range.endIP : Range → IP
  | .v4Range _ e => e
  | .v6Range _ e => e

/-- Embedding of `v4Range.Family` and `v6Range.Family`. -/
def Range.Family : Range → Family
  | .v4Range _ _ => .V4Family
  | .v6Range _ _ => .V6Family

/-- Embedding of `v4Range.Contains` and `v6Range.Contains`:
`bytes.Compare(ip, r.Start) >= 0 && bytes.Compare(ip, r.End) <= 0`
on the stored slices, with no normalization of the candidate. -/
def Range.Contains : Range → IP → Bool
  | .v4Range s e, ip => bytesCompare ip s != Ordering.lt && bytesCompare ip e != Ordering.gt
  | .v6Range s e, ip => bytesCompare ip s != Ordering.lt && bytesCompare ip e != Ordering.gt

/-- Embedding of Go `v4ToInt`: `ip = ip.To4()`, then
`int64(ip[0])<<24 | int64(ip[1])<<16 | int64(ip[2])<<8 | int64(ip[3])`.
When `To4` returns `nil` the Go code would panic on the index access; the
embedding returns 0 there (`New` never produces such a range, so `Size` is
never evaluated on that branch). -/
def v4ToInt (ip : IP) : Int :=
  let p := (to4 ip).getD []
  (((((p.getD 0 0).val <<< 24) ||| ((p.getD 1 0).val <<< 16)
      ||| ((p.getD 2 0).val <<< 8) ||| (p.getD 3 0).val : Nat) : Int))

/-- Embedding of Go `big.Int.SetBytes`: big-endian interpretation of a byte
slice as an unsigned integer. -/
def setBytes (l : IP) : Nat := l.foldl (fun acc b => acc * 256 + b.val) 0

/-- Embedding of `v4Range.Size` and `v6Range.Size`; the `*big.Int` result
becomes `Int`. -/
def Range.Size : Range → Int
  | .v4Range s e => v4ToInt e - v4ToInt s + 1
  | .v6Range s e => (setBytes e : Int) - (setBytes s : Int) + 1

/-! ### Generic helper lemmas -/

/-- Bitwise or of a shifted value with a small value is addition. -/
theorem mul_two_pow_lor (n a b : Nat) (hb : b < 2 ^ n) :
    (a * 2 ^ n) ||| b = a * 2 ^ n + b := by
  induction n generalizing a b with
  | zero =>
    have : b = 0 := by omega
    subst this; simp
  | succ n ih =>
    have hpow : 2 ^ (n + 1) = 2 ^ n * 2 := pow_succ 2 n
    have hb2 : b / 2 < 2 ^ n := by omega
    have h1 : a * 2 ^ (n + 1) = Nat.bit false (a * 2 ^ n) := by
      simp only [Nat.bit_val, Bool.toNat_false, Nat.add_zero, hpow]; ring
    have h2 : b = Nat.bit (decide (b % 2 = 1)) (b / 2) := by
      have := Nat.bit_decide_mod_two_eq_one_shiftRight_one b
      rwa [Nat.shiftRight_eq_div_pow, pow_one, Eq.comm] at this
    rw [h1]
    conv_lhs => rw [h2]
    rw [Nat.lor_bit, ih _ _ hb2, Nat.bit_val, Bool.false_or]
    have hmod : (decide (b % 2 = 1)).toNat = b % 2 := by
      rcases Nat.mod_two_eq_zero_or_one b with h | h <;> simp [h]
    rw [hmod, Nat.bit_val]
    simp only [Bool.toNat_false, Nat.add_zero]
    omega

theorem exists_cons_of_length_succ {α : Type} {l : List α} {n : Nat}
    (h : l.length = n + 1) : ∃ a t, l = a :: t ∧ t.length = n := by
  cases l with
  | nil => simp at h
  | cons a t => exact ⟨a, t, rfl, by simpa using h⟩

theorem length_four_destruct {α : Type} {l : List α} (hlen : l.length = 4) :
    ∃ b0 b1 b2 b3, l = [b0, b1, b2, b3] := by
  obtain ⟨b0, t0, d0, w0⟩ := exists_cons_of_length_succ hlen
  obtain ⟨b1, t1, d1, w1⟩ := exists_cons_of_length_succ w0
  obtain ⟨b2, t2, d2, w2⟩ := exists_cons_of_length_succ w1
  obtain ⟨b3, t3, d3, w3⟩ := exists_cons_of_length_succ w2
  have hnil : t3 = [] := List.eq_nil_of_length_eq_zero w3
  exact ⟨b0, b1, b2, b3, by rw [d0, d1,
      d2, d3, hnil]⟩

theorem length_sixteen_destruct {α : Type} {l : List α} (hlen : l.length = 16) :
    ∃ b0 b1 b2 b3 b4 b5 b6 b7 b8 b9 b10 b11 b12 b13 b14 b15,
      l = [b0, b1, b2, b3, b4, b5, b6, b7, b8, b9, b10, b11, b12, b13, b14, b15] := by
  obtain ⟨b0, t0, d0, w0⟩ := exists_cons_of_length_succ hlen
  obtain ⟨b1, t1, d1, w1⟩ := exists_cons_of_length_succ w0
  obtain ⟨b2, t2, d2, w2⟩ := exists_cons_of_length_succ w1
  obtain ⟨b3, t3, d3, w3⟩ := exists_cons_of_length_succ w2
  obtain ⟨b4, t4, d4, w4⟩ := exists_cons_of_length_succ w3
  obtain ⟨b5, t5, d5, w5⟩ := exists_cons_of_length_succ w4
  obtain ⟨b6, t6, d6, w6⟩ := exists_cons_of_length_succ w5
  obtain ⟨b7, t7, d7, w7⟩ := exists_cons_of_length_succ w6
  obtain ⟨b8, t8, d8, w8⟩ := exists_cons_of_length_succ w7
  obtain ⟨b9, t9, d9, w9⟩ := exists_cons_of_length_succ w8
  obtain ⟨b10, t10, d10, w10⟩ := exists_cons_of_length_succ w9
  obtain ⟨b11, t11, d11, w11⟩ := exists_cons_of_length_succ w10
  obtain ⟨b12, t12, d12, w12⟩ := exists_cons_of_length_succ w11
  obtain ⟨b13, t13, d13, w13⟩ := exists_cons_of_length_succ w12
  obtain ⟨b14, t14, d14, w14⟩ := exists_cons_of_length_succ w13
  obtain ⟨b15, t15, d15, w15⟩ := exists_cons_of_length_succ w14
  have hnil : t15 = [] := List.eq_nil_of_length_eq_zero w15
  exact ⟨b0, b1, b2, b3, b4, b5, b6, b7, b8, b9, b10, b11, b12, b13, b14, b15,
    by rw [d0, d1, d2, d3, d4, d5, d6,
      d7, d8, d9, d10, d11, d12, d13, d14, d15, hnil]⟩

/-! ### Lemmas about byte-wise comparison -/

theorem bytesCompare_self (a : IP) : bytesCompare a a = .eq := by
  induction a with
  | nil => rfl
  | cons x t ih => simp [bytesCompare, ih]

theorem bytesCompare_swap (a b : IP) : bytesCompare a b = (bytesCompare b a).swap := by
  induction a generalizing b with
  | nil => cases b <;> rfl
  | cons x t ih =>
    cases b with
    | nil => rfl
    | cons y u =>
      rcases lt_trichotomy x.val y.val with h | h | h
      · simp [bytesCompare, h, Nat.lt_asymm h, Ordering.swap]
      · simp [bytesCompare, h, ih, Nat.lt_irrefl]
      · simp [bytesCompare, h, Nat.lt_asymm h, Ordering.swap]

theorem bytesCompare_append_left (p a b : IP) :
    bytesCompare (p ++ a) (p ++ b) = bytesCompare a b := by
  induction p with
  | nil => rfl
  | cons x t ih => simp [bytesCompare, ih]

/-- Spec-side definition: the big-endian interpretation of a byte sequence as
an unsigned integer (each byte weighted by 256 to the power of its distance
from the end). -/
def beNat : IP → Nat
  | [] => 0
  | b :: rest => b.val * 256 ^ rest.length + beNat rest

theorem beNat_lt (l : IP) : beNat l < 256 ^ l.length := by
  induction l with
  | nil => simp [beNat]
  | cons b t ih =>
    have hb : b.val * 256 ^ t.length ≤ 255 * 256 ^ t.length :=
      Nat.mul_le_mul_right _ (by omega)
    have h2 : 255 * 256 ^ t.length + 256 ^ t.length = 256 ^ (t.length + 1) := by ring
    simp only [beNat, List.length_cons]
    omega

theorem bytesCompare_le_iff_beNat_le (a b : IP) (hlen : a.length = b.length) :
    bytesCompare a b ≠ .gt ↔ beNat a ≤ beNat b := by
  induction a generalizing b with
  | nil =>
    cases b with
    | nil => simp [bytesCompare, beNat]
    | cons y u => simp at hlen
  | cons x t ih =>
    cases b with
    | nil => simp at hlen
    | cons y u =>
      have hlen' : t.length = u.length := by simpa using hlen
      have hat := beNat_lt t
      have hau := beNat_lt u
      rw [hlen'] at hat
      simp only [beNat, hlen']
      rcases lt_trichotomy x.val y.val with h | h | h
      · have hmul : x.val * 256 ^ u.length + 256 ^ u.length ≤ y.val * 256 ^ u.length := by
          have h1 : (x.val + 1) * 256 ^ u.length ≤ y.val * 256 ^ u.length :=
            Nat.mul_le_mul_right _ (by omega)
          have h2 : (x.val + 1) * 256 ^ u.length
              = x.val * 256 ^ u.length + 256 ^ u.length := by ring
          omega
        simp only [bytesCompare, if_pos h]
        constructor
        · intro _; omega
        · intro _; simp
      · have hxy : x.val = y.val := h
        simp only [bytesCompare, if_neg (by omega : ¬ x.val < y.val),
          if_neg (by omega : ¬ y.val < x.val)]
        rw [ih u hlen', hxy]
        constructor
        · intro hle; omega
        · intro hle; omega
      · have hmul : y.val * 256 ^ u.length + 256 ^ u.length ≤ x.val * 256 ^ u.length := by
          have h1 : (y.val + 1) * 256 ^ u.length ≤ x.val * 256 ^ u.length :=
            Nat.mul_le_mul_right _ (by omega)
          have h2 : (y.val + 1) * 256 ^ u.length
              = y.val * 256 ^ u.length + 256 ^ u.length := by ring
          omega
        simp only [bytesCompare, if_neg (by omega : ¬ x.val < y.val), if_pos h]
        constructor
        · intro hc; exact absurd rfl hc
        · intro hc; exfalso; omega

/-! ### Structural lemmas about `to4` and `to16` -/

theorem to4_of_length_four {ip : IP} (h : ip.length = 4) : to4 ip = some ip := by
  simp [to4, h]

theorem to4_append_lead {p : IP} (h : p.length = 4) : to4 (v4InV6Lead ++ p) = some p := by
  obtain ⟨a, b, c, d, rfl⟩ := length_four_destruct h
  rfl

theorem to4_cases {ip p : IP} (h : to4 ip = some p) :
    (ip.length = 4 ∧ p = ip) ∨ (ip = v4InV6Lead ++ p ∧ p.length = 4) := by
  by_cases h4 : ip.length = 4
  · left
    refine ⟨h4, ?_⟩
    simp [to4, h4] at h
    exact h.symm
  · right
    simp only [to4, h4] at h
    rw [if_neg (by simp [h4])] at h
    split at h
    next hcond =>
      simp only [Bool.and_eq_true, beq_iff_eq] at hcond
      obtain ⟨⟨⟨h16, hz⟩, h10⟩, h11⟩ := hcond
      obtain ⟨b0, b1, b2, b3, b4, b5, b6, b7, b8, b9, c10, c11, c12, c13, c14, c15, rfl⟩ :=
        length_sixteen_destruct h16
      simp only [List.take, isZeros, List.all_cons, List.all_nil, Bool.and_eq_true,
        beq_iff_eq] at hz
      obtain ⟨g0, g1, g2, g3, g4, g5, g6, g7, g8, g9, _⟩ := hz
      have e0 : b0 = 0 := Fin.ext (by simpa using g0)
      have e1 : b1 = 0 := Fin.ext (by simpa using g1)
      have e2 : b2 = 0 := Fin.ext (by simpa using g2)
      have e3 : b3 = 0 := Fin.ext (by simpa using g3)
      have e4 : b4 = 0 := Fin.ext (by simpa using g4)
      have e5 : b5 = 0 := Fin.ext (by simpa using g5)
      have e6 : b6 = 0 := Fin.ext (by simpa using g6)
      have e7 : b7 = 0 := Fin.ext (by simpa using g7)
      have e8 : b8 = 0 := Fin.ext (by simpa using g8)
      have e9 : b9 = 0 := Fin.ext (by simpa using g9)
      have e10 : c10 = 0xff := by simpa using h10
      have e11 : c11 = 0xff := by simpa using h11
      have hp : p = [c12, c13, c14, c15] := by
        simpa [List.drop] using h.symm
      subst e0 e1 e2 e3 e4 e5 e6 e7 e8 e9 e10 e11 hp
      exact ⟨rfl, rfl⟩
    next => simp at h

theorem to4_length {ip p : IP} (h : to4 ip = some p) : p.length = 4 := by
  rcases to4_cases h with ⟨h4, rfl⟩ | ⟨_, h4⟩
  · exact h4
  · exact h4

theorem to16_of_length_sixteen {ip : IP} (h : ip.length = 16) : to16 ip = some ip := by
  simp [to16, h]

theorem to16_cases {ip p : IP} (h : to16 ip = some p) :
    (ip.length = 4 ∧ p = v4InV6Lead ++ ip) ∨ (ip.length = 16 ∧ p = ip) := by
  by_cases h4 : ip.length = 4
  · left
    refine ⟨h4, ?_⟩
    simp [to16, h4] at h
    exact h.symm
  · right
    simp only [to16] at h
    rw [if_neg (by simp [h4])] at h
    split at h
    next h16 => exact ⟨by simpa using h16, by simpa using h.symm⟩
    next => simp at h

/-! ### Bridges from the machine-level size computations to `beNat` -/

theorem foldl_setBytes (l : IP) (acc : Nat) :
    l.foldl (fun acc b => acc * 256 + b.val) acc = acc * 256 ^ l.length + beNat l := by
  induction l generalizing acc with
  | nil => simp [beNat]
  | cons b t ih =>
    simp only [List.foldl_cons, beNat, List.length_cons, ih]
    ring

theorem setBytes_eq_beNat (l : IP) : setBytes l = beNat l := by
  simpa [setBytes] using foldl_setBytes l 0

theorem v4ToInt_eq_beNat {ip p : IP} (h : to4 ip = some p) : v4ToInt ip = (beNat p : Int) := by
  obtain ⟨a, b, c, d, rfl⟩ := length_four_destruct (to4_length h)
  simp only [v4ToInt, h, Option.getD_some]
  have h1 : a.val <<< 24 ||| b.val <<< 16 = a.val * 2 ^ 24 + b.val * 2 ^ 16 := by
    rw [Nat.shiftLeft_eq, Nat.shiftLeft_eq]
    exact mul_two_pow_lor 24 _ _ (by have := b.isLt; nlinarith)
  have h2 : a.val * 2 ^ 24 + b.val * 2 ^ 16 ||| c.val <<< 8
      = a.val * 2 ^ 24 + b.val * 2 ^ 16 + c.val * 2 ^ 8 := by
    rw [Nat.shiftLeft_eq]
    have e : a.val * 2 ^ 24 + b.val * 2 ^ 16 = (a.val * 2 ^ 8 + b.val) * 2 ^ 16 := by ring
    rw [e, mul_two_pow_lor 16 _ _ (by have := c.isLt; nlinarith)]
    try ring
  have h3 : a.val * 2 ^ 24 + b.val * 2 ^ 16 + c.val * 2 ^ 8 ||| d.val
      = a.val * 2 ^ 24 + b.val * 2 ^ 16 + c.val * 2 ^ 8 + d.val := by
    have e : a.val * 2 ^ 24 + b.val * 2 ^ 16 + c.val * 2 ^ 8
        = (a.val * 2 ^ 16 + b.val * 2 ^ 8 + c.val) * 2 ^ 8 := by ring
    rw [e, mul_two_pow_lor 8 _ _ (by have := d.isLt; norm_num)]
    try ring
  simp only [List.getD_cons_zero, List.getD_cons_succ, beNat, List.length_cons,
    List.length_nil]
  rw [h1, h2, h3]
  push_cast
  ring_nf

/-! ### Spec-side validity of constructor inputs -/

/-- Spec-side definition: the address family of an input address, when the
address is valid (4-byte representable addresses are IPv4, including the
IPv4-mapped 16-byte form; other 16-byte addresses are IPv6). -/
def famOf (ip : IP) : Option Family :=
  if (to4 ip).isSome then some .V4Family
  else if (to16 ip).isSome then some .V6Family
  else none

/-- Spec-side definition: the fixed-width normal form of an address for its
family (4 bytes for IPv4, 16 bytes for IPv6). -/
def normForm (ip : IP) : Option IP :=
  match to4 ip with
  | some p => some p
  | none => to16 ip

/-- Spec-side definition of valid constructor inputs, following §7 of the
spec: both addresses parse, the families agree, and `start <= end` under
byte-wise comparison in the family's fixed-width form. -/
def validInputs (s e : IP) : Bool :=
  match famOf s, famOf e, normForm s, normForm e with
  | some f1, some f2, some ns, some ne => f1 == f2 && bytesCompare ns ne != Ordering.gt
  | _, _, _, _ => false

theorem ordering_bne_iff {a b : Ordering} : (a != b) = true ↔ a ≠ b := by
  cases a <;> cases b <;> simp <;> decide

theorem isV4RangeValid_iff {s e : IP} : isV4RangeValid s e = true ↔
    ∃ s4 e4, to4 s = some s4 ∧ to4 e = some e4 ∧ bytesCompare s4 e4 ≠ .gt := by
  unfold isV4RangeValid
  rcases h1 : to4 s with _ | s4 <;> rcases h2 : to4 e with _ | e4 <;>
    simp [h1, h2, ordering_bne_iff]

theorem isV6RangeValid_iff {s e : IP} : isV6RangeValid s e = true ↔
    to4 s = none ∧ to4 e = none ∧
      ∃ s16 e16, to16 s = some s16 ∧ to16 e = some e16 ∧ bytesCompare s16 e16 ≠ .gt := by
  unfold isV6RangeValid
  rcases h1 : to4 s with _ | s4 <;> rcases h2 : to16 s with _ | s16 <;>
    rcases h3 : to4 e with _ | e4 <;> rcases h4 : to16 e with _ | e16 <;>
      simp [h1, h2, h3, h4, ordering_bne_iff]

theorem New_eq_some_cases {s e : IP} {r : Range} (h : New s e = some r) :
    (r = .v4Range s e ∧ isV4RangeValid s e = true) ∨
    (r = .v6Range s e ∧ isV4RangeValid s e = false ∧ isV6RangeValid s e = true) := by
  unfold New at h
  split at h
  next hv4 =>
    injection h with h
    exact .inl ⟨h.symm, hv4⟩
  next hv4 =>
    split at h
    next hv6 =>
      injection h with h
      exact .inr ⟨h.symm, by simpa using hv4, hv6⟩
    next => simp at h

theorem New_isSome_eq_validInputs (s e : IP) : (New s e).isSome = validInputs s e := by
  rcases h4s : to4 s with _ | s4 <;> rcases h4e : to4 e with _ | e4
  · -- neither address is IPv4-representable
    rcases h16s : to16 s with _ | s16 <;> rcases h16e : to16 e with _ | e16 <;>
      simp only [New, validInputs, famOf, normForm, isV4RangeValid, isV6RangeValid,
        h4s, h4e, h16s, h16e, Option.isSome_none, Option.isSome_some, Bool.false_eq_true,
        if_false, if_true]
    cases hb : bytesCompare s16 e16 != Ordering.gt <;> simp [hb]
  · -- start not IPv4, end IPv4
    rcases h16s : to16 s with _ | s16 <;>
      simp [New, validInputs, famOf, normForm, isV4RangeValid, isV6RangeValid,
        h4s, h4e, h16s]
  · -- start IPv4, end not IPv4
    rcases h16e : to16 e with _ | e16 <;>
      simp [New, validInputs, famOf, normForm, isV4RangeValid, isV6RangeValid,
        h4s, h4e, h16e]
  · -- both IPv4-representable
    simp only [New, validInputs, famOf, normForm, isV4RangeValid, isV6RangeValid,
      h4s, h4e, Option.isSome_none, Option.isSome_some, Bool.false_eq_true,
      if_false, if_true]
    cases hb : bytesCompare s4 e4 != Ordering.gt <;> simp [hb]

/-- **C1**: for every pair of input addresses, the constructor `New` returns
the no-range sentinel (`none`, embedding Go's `nil`) exactly when the inputs
are invalid — the families differ, an address does not parse, or start > end
byte-wise in the family's fixed-width form — and otherwise returns a range.
`New` is a total Lean function, so it can never panic. -/
theorem new_none_iff_invalid (s e : IP) :
    (New s e = none ↔ validInputs s e = false) ∧
    (validInputs s e = true → ∃ r, New s e = some r) := by
  have h := New_isSome_eq_validInputs s e
  constructor
  · constructor
    · intro hn
      rw [hn] at h
      simpa using h.symm
    · intro hv
      rw [hv] at h
      exact Option.not_isSome_iff_eq_none.mp (by simp [h])
  · intro hv
    rw [hv] at h
    exact Option.isSome_iff_exists.mp h

/-- Witness: a concrete valid pair on which `new_none_iff_invalid` applies. -/
theorem new_none_iff_invalid_witness :
    validInputs [10, 0, 0, 1] [10, 0, 0, 255] = true ∧
    ∃ r, New [10, 0, 0, 1] [10, 0, 0, 255] = some r :=
  ⟨by decide, (new_none_iff_invalid [10, 0, 0, 1] [10, 0, 0, 255]).2 (by decide)⟩

/-! ### Membership -/

theorem swap_ne_lt_iff {o : Ordering} : o.swap ≠ .lt ↔ o ≠ .gt := by
  cases o <;> simp [Ordering.swap]

theorem bytesCompare_ne_lt_iff (a b : IP) :
    bytesCompare a b ≠ .lt ↔ bytesCompare b a ≠ .gt := by
  rw [bytesCompare_swap a b]
  exact swap_ne_lt_iff

/-- For a constructed range whose two boundaries have the same byte length,
the stored boundary slices themselves satisfy `start <= end` byte-wise. -/
theorem New_stored_le {s e : IP} {r : Range} (h : New s e = some r)
    (hse : s.length = e.length) : bytesCompare s e ≠ .gt := by
  rcases New_eq_some_cases h with ⟨rfl, hv⟩ | ⟨rfl, _, hv⟩
  · obtain ⟨s4, e4, hs4, he4, hcmp⟩ := isV4RangeValid_iff.mp hv
    rcases to4_cases hs4 with ⟨hs, rfl⟩ | ⟨rfl, hs⟩
    · rcases to4_cases he4 with ⟨he, rfl⟩ | ⟨rfl, he⟩
      · exact hcmp
      · exfalso
        rw [hs] at hse
        simp [v4InV6Lead, he] at hse
    · rcases to4_cases he4 with ⟨he, rfl⟩ | ⟨rfl, he⟩
      · exfalso
        rw [he] at hse
        simp [v4InV6Lead, hs] at hse
      · rw [bytesCompare_append_left]
        exact hcmp
  · obtain ⟨hs0, he0, s16, e16, hs16, he16, hcmp⟩ := isV6RangeValid_iff.mp hv
    rcases to16_cases hs16 with ⟨h4, _⟩ | ⟨_, rfl⟩
    · rw [to4_of_length_four h4] at hs0
      cases hs0
    · rcases to16_cases he16 with ⟨h4, _⟩ | ⟨_, rfl⟩
      · rw [to4_of_length_four h4] at he0
        cases he0
      · exact hcmp

theorem contains_unfold {s e : IP} {r : Range} (h : New s e = some r) (ip : IP) :
    r.Contains ip
      = ((bytesCompare ip s != Ordering.lt) && (bytesCompare ip e != Ordering.gt)) := by
  rcases New_eq_some_cases h with ⟨rfl, _⟩ | ⟨rfl, _, _⟩ <;> rfl

/-- **C2**: for every valid range and candidate of the same family and byte
width as the boundaries, `Contains` is true exactly when
`start <= candidate <= end` byte-wise; in particular both boundaries are
contained, and candidates strictly outside are rejected. -/
theorem contains_iff_between {s e c : IP} {r : Range} (h : New s e = some r)
    (_hcs : c.length = s.length) (hse : s.length = e.length)
    (_hfam : famOf c = famOf s) :
    (r.Contains c = true ↔ bytesCompare s c ≠ .gt ∧ bytesCompare c e ≠ .gt) ∧
    r.Contains s = true ∧ r.Contains e = true ∧
    (bytesCompare c s = .lt → r.Contains c = false) ∧
    (bytesCompare e c = .lt → r.Contains c = false) := by
  have hle : bytesCompare s e ≠ .gt := New_stored_le h hse
  refine ⟨?_, ?_, ?_, ?_, ?_⟩
  · rw [contains_unfold h c]
    simp only [Bool.and_eq_true, ordering_bne_iff]
    rw [bytesCompare_ne_lt_iff]
  · rw [contains_unfold h s]
    simp only [Bool.and_eq_true, ordering_bne_iff, bytesCompare_self]
    exact ⟨by simp, hle⟩
  · rw [contains_unfold h e]
    simp only [Bool.and_eq_true, ordering_bne_iff, bytesCompare_self]
    exact ⟨(bytesCompare_ne_lt_iff e s).mpr hle, by simp⟩
  · intro hlt
    rw [contains_unfold h c, hlt]
    rfl
  · intro hlt
    have hgt : bytesCompare c e = .gt := by
      rw [bytesCompare_swap, hlt]
      rfl
    rw [contains_unfold h c, hgt]
    simp only [Bool.and_eq_false_iff]
    right
    rfl

/-- Witness: `contains_iff_between` applied to the concrete range
10.0.0.1–10.0.0.9 with candidate 10.0.0.5. -/
theorem contains_iff_between_witness :
    New [10, 0, 0, 1] [10, 0, 0, 9] = some (Range.v4Range [10, 0, 0, 1] [10, 0, 0, 9]) ∧
    (((Range.v4Range [10, 0, 0, 1] [10, 0, 0, 9]).Contains [10, 0, 0, 5] = true ↔
        bytesCompare [10, 0, 0, 1] [10, 0, 0, 5] ≠ .gt ∧
          bytesCompare [10, 0, 0, 5] [10, 0, 0, 9] ≠ .gt) ∧
      (Range.v4Range [10, 0, 0, 1] [10, 0, 0, 9]).Contains [10, 0, 0, 1] = true ∧
      (Range.v4Range [10, 0, 0, 1] [10, 0, 0, 9]).Contains [10, 0, 0, 9] = true ∧
      (bytesCompare [10, 0, 0, 5] [10, 0, 0, 1] = .lt →
        (Range.v4Range [10, 0, 0, 1] [10, 0, 0, 9]).Contains [10, 0, 0, 5] = false) ∧
      (bytesCompare [10, 0, 0, 9] [10, 0, 0, 5] = .lt →
        (Range.v4Range [10, 0, 0, 1] [10, 0, 0, 9]).Contains [10, 0, 0, 5] = false)) :=
  ⟨by decide, contains_iff_between (by decide) (by decide) (by decide) (by decide)⟩

/-! ### Size -/

theorem to16_length {ip p : IP} (h : to16 ip = some p) : p.length = 16 := by
  rcases to16_cases h with ⟨h4, rfl⟩ | ⟨h16, rfl⟩
  · simp [v4InV6Lead, h4]
  · exact h16

/-- **C3**: for every constructed IPv4 range, `Size` equals
`end_int - start_int + 1` on the big-endian integer values of the 4-byte
forms of the boundaries. -/
theorem v4_size_formula {s e : IP} {r : Range} (h : New s e = some r)
    (h4 : r.Family = .V4Family) :
    ∃ s4 e4, to4 s = some s4 ∧ to4 e = some e4 ∧
      r.Size = (beNat e4 : Int) - (beNat s4 : Int) + 1 := by
  rcases New_eq_some_cases h with ⟨rfl, hv⟩ | ⟨rfl, _, _⟩
  · obtain ⟨s4, e4, hs4, he4, _⟩ := isV4RangeValid_iff.mp hv
    refine ⟨s4, e4, hs4, he4, ?_⟩
    simp only [Range.Size]
    rw [v4ToInt_eq_beNat he4, v4ToInt_eq_beNat hs4]
  · simp [Range.Family] at h4

/-- Witness: `v4_size_formula` on the concrete range 10.0.0.1–10.0.0.255. -/
theorem v4_size_formula_witness :
    Range.Family (Range.v4Range [10, 0, 0, 1] [10, 0, 0, 255]) = .V4Family ∧
    ∃ s4 e4, to4 [10, 0, 0, 1] = some s4 ∧ to4 [10, 0, 0, 255] = some e4 ∧
      (Range.v4Range [10, 0, 0, 1] [10, 0, 0, 255]).Size
        = (beNat e4 : Int) - (beNat s4 : Int) + 1 :=
  ⟨by decide, v4_size_formula (r := Range.v4Range [10, 0, 0, 1] [10, 0, 0, 255])
    (by decide) (by decide)⟩

/-- **C4**: for every constructed IPv6 range, `Size` equals
`end_int - start_int + 1` exactly, on the big-endian integer values of the
16-byte forms, and the result never exceeds `2 ^ 128`. -/
theorem v6_size_formula {s e : IP} {r : Range} (h : New s e = some r)
    (h6 : r.Family = .V6Family) :
    ∃ s16 e16, to16 s = some s16 ∧ to16 e = some e16 ∧
      r.Size = (beNat e16 : Int) - (beNat s16 : Int) + 1 ∧ r.Size ≤ 2 ^ 128 := by
  rcases New_eq_some_cases h with ⟨rfl, _⟩ | ⟨rfl, _, hv⟩
  · simp [Range.Family] at h6
  · obtain ⟨hs0, he0, s16, e16, hs16, he16, _⟩ := isV6RangeValid_iff.mp hv
    rcases to16_cases hs16 with ⟨h4, _⟩ | ⟨hlen_s, rfl⟩
    · rw [to4_of_length_four h4] at hs0
      cases hs0
    rcases to16_cases he16 with ⟨h4, _⟩ | ⟨hlen_e, rfl⟩
    · rw [to4_of_length_four h4] at he0
      cases he0
    refine ⟨s16, e16, hs16, he16, ?_, ?_⟩
    · simp only [Range.Size]
      rw [setBytes_eq_beNat, setBytes_eq_beNat]
    · simp only [Range.Size]
      rw [setBytes_eq_beNat, setBytes_eq_beNat]
      have h1 : beNat e16 < 256 ^ 16 := hlen_e ▸ beNat_lt e16
      have h2 : (256 : Nat) ^ 16 = 2 ^ 128 := by norm_num
      rw [h2] at h1
      have h3 : ((2 : Nat) ^ 128 : Int) = (2 : Int) ^ 128 := by norm_cast
      omega

/-- Witness: `v6_size_formula` on the concrete range `::1`–`::ffff`. -/
theorem v6_size_formula_witness :
    Range.Family (Range.v6Range [0, 0, 0, 0, 0, 0, 0, 0, 0, 0, 0, 0, 0, 0, 0, 1]
        [0, 0, 0, 0, 0, 0, 0, 0, 0, 0, 0, 0, 0, 0, 0xff, 0xff]) = .V6Family ∧
    ∃ s16 e16, to16 [0, 0, 0, 0, 0, 0, 0, 0, 0, 0, 0, 0, 0, 0, 0, 1] = some s16 ∧
      to16 [0, 0, 0, 0, 0, 0, 0, 0, 0, 0, 0, 0, 0, 0, 0xff, 0xff] = some e16 ∧
      (Range.v6Range [0, 0, 0, 0, 0, 0, 0, 0, 0, 0, 0, 0, 0, 0, 0, 1]
          [0, 0, 0, 0, 0, 0, 0, 0, 0, 0, 0, 0, 0, 0, 0xff, 0xff]).Size
        = (beNat e16 : Int) - (beNat s16 : Int) + 1 ∧
      (Range.v6Range [0, 0, 0, 0, 0, 0, 0, 0, 0, 0, 0, 0, 0, 0, 0, 1]
          [0, 0, 0, 0, 0, 0, 0, 0, 0, 0, 0, 0, 0, 0, 0xff, 0xff]).Size ≤ 2 ^ 128 :=
  ⟨by decide, v6_size_formula
    (r := Range.v6Range [0, 0, 0, 0, 0, 0, 0, 0, 0, 0, 0, 0, 0, 0, 0, 1]
      [0, 0, 0, 0, 0, 0, 0, 0, 0, 0, 0, 0, 0, 0, 0xff, 0xff])
    (by decide) (by decide)⟩

/-- **C5**: every constructed range has `Size >= 1`, and construction with
`start == end` succeeds for every valid address and yields size exactly 1. -/
theorem size_ge_one :
    (∀ s e r, New s e = some r → 1 ≤ r.Size) ∧
    (∀ s, (famOf s).isSome → ∃ r, New s s = some r ∧ r.Size = 1) := by
  constructor
  · intro s e r h
    rcases New_eq_some_cases h with ⟨rfl, hv⟩ | ⟨rfl, _, hv⟩
    · obtain ⟨s4, e4, hs4, he4, hcmp⟩ := isV4RangeValid_iff.mp hv
      have hlen : s4.length = e4.length := by rw [to4_length hs4, to4_length he4]
      have hle : beNat s4 ≤ beNat e4 := (bytesCompare_le_iff_beNat_le _ _ hlen).mp hcmp
      simp only [Range.Size]
      rw [v4ToInt_eq_beNat he4, v4ToInt_eq_beNat hs4]
      omega
    · obtain ⟨hs0, he0, s16, e16, hs16, he16, hcmp⟩ := isV6RangeValid_iff.mp hv
      rcases to16_cases hs16 with ⟨h4, _⟩ | ⟨_, rfl⟩
      · rw [to4_of_length_four h4] at hs0
        cases hs0
      rcases to16_cases he16 with ⟨h4, _⟩ | ⟨_, rfl⟩
      · rw [to4_of_length_four h4] at he0
        cases he0
      have hlen : s16.length = e16.length := by rw [to16_length hs16, to16_length he16]
      have hle : beNat s16 ≤ beNat e16 := (bytesCompare_le_iff_beNat_le _ _ hlen).mp hcmp
      simp only [Range.Size]
      rw [setBytes_eq_beNat, setBytes_eq_beNat]
      omega
  · intro s hfam
    by_cases h4 : (to4 s).isSome
    · obtain ⟨s4, hs4⟩ := Option.isSome_iff_exists.mp h4
      have hv : isV4RangeValid s s = true :=
        isV4RangeValid_iff.mpr ⟨s4, s4, hs4, hs4, by simp [bytesCompare_self]⟩
      refine ⟨.v4Range s s, by simp [New, hv], ?_⟩
      simp only [Range.Size]
      rw [v4ToInt_eq_beNat hs4]
      ring
    · have hnone : to4 s = none := Option.not_isSome_iff_eq_none.mp h4
      by_cases h16 : (to16 s).isSome
      · obtain ⟨s16, hs16⟩ := Option.isSome_iff_exists.mp h16
        have hv : isV6RangeValid s s = true :=
          isV6RangeValid_iff.mpr
            ⟨hnone, hnone, s16, s16, hs16, hs16, by simp [bytesCompare_self]⟩
        have hv4 : isV4RangeValid s s = false := by
          simp [isV4RangeValid, hnone]
        refine ⟨.v6Range s s, by simp [New, hv, hv4], ?_⟩
        simp only [Range.Size]
        ring
      · exfalso
        simp [famOf, h4, h16] at hfam

/-- Witness: `size_ge_one` on concrete singleton and non-singleton ranges. -/
theorem size_ge_one_witness :
    (New [10, 0, 0, 1] [10, 0, 0, 255] = some (Range.v4Range [10, 0, 0, 1] [10, 0, 0, 255]) ∧
      1 ≤ (Range.v4Range [10, 0, 0, 1] [10, 0, 0, 255]).Size) ∧
    ((famOf [192, 168, 1, 1]).isSome ∧
      ∃ r, New [192, 168, 1, 1] [192, 168, 1, 1] = some r ∧ r.Size = 1) :=
  ⟨⟨by decide, size_ge_one.1 [10, 0, 0, 1] [10, 0, 0, 255] _ (by decide)⟩,
   ⟨by decide, size_ge_one.2 [192, 168, 1, 1] (by decide)⟩⟩

/-! ### The full IPv6 range -/

set_option maxRecDepth 8000

/-- **C6 counterexample**: constructing the range `::` –
`ffff:ffff:ffff:ffff:ffff:ffff:ffff:ffff` succeeds, but its size is
`2 ^ 128`, not `2 ^ 128 - 1` as the claim states. -/
theorem full_v6_range_size_cex :
    New [0, 0, 0, 0, 0, 0, 0, 0, 0, 0, 0, 0, 0, 0, 0, 0]
        [0xff, 0xff, 0xff, 0xff, 0xff, 0xff, 0xff, 0xff,
          0xff, 0xff, 0xff, 0xff, 0xff, 0xff, 0xff, 0xff]
      = some (Range.v6Range [0, 0, 0, 0, 0, 0, 0, 0, 0, 0, 0, 0, 0, 0, 0, 0]
          [0xff, 0xff, 0xff, 0xff, 0xff, 0xff, 0xff, 0xff,
            0xff, 0xff, 0xff, 0xff, 0xff, 0xff, 0xff, 0xff]) ∧
    ¬ (Range.v6Range [0, 0, 0, 0, 0, 0, 0, 0, 0, 0, 0, 0, 0, 0, 0, 0]
        [0xff, 0xff, 0xff, 0xff, 0xff, 0xff, 0xff, 0xff,
          0xff, 0xff, 0xff, 0xff, 0xff, 0xff, 0xff, 0xff]).Size = 2 ^ 128 - 1 := by
  constructor
  · decide
  · decide

/-- **C6 (amended)**: constructing the range `::` –
`ffff:ffff:ffff:ffff:ffff:ffff:ffff:ffff` succeeds and its size is exactly
`2 ^ 128`. -/
theorem full_v6_range_size :
    New [0, 0, 0, 0, 0, 0, 0, 0, 0, 0, 0, 0, 0, 0, 0, 0]
        [0xff, 0xff, 0xff, 0xff, 0xff, 0xff, 0xff, 0xff,
          0xff, 0xff, 0xff, 0xff, 0xff, 0xff, 0xff, 0xff]
      = some (Range.v6Range [0, 0, 0, 0, 0, 0, 0, 0, 0, 0, 0, 0, 0, 0, 0, 0]
          [0xff, 0xff, 0xff, 0xff, 0xff, 0xff, 0xff, 0xff,
            0xff, 0xff, 0xff, 0xff, 0xff, 0xff, 0xff, 0xff]) ∧
    (Range.v6Range [0, 0, 0, 0, 0, 0, 0, 0, 0, 0, 0, 0, 0, 0, 0, 0]
        [0xff, 0xff, 0xff, 0xff, 0xff, 0xff, 0xff, 0xff,
          0xff, 0xff, 0xff, 0xff, 0xff, 0xff, 0xff, 0xff]).Size = 2 ^ 128 := by
  constructor
  · decide
  · decide

/-! ### Family classification -/

/-- **C7**: for every valid same-family pair with start <= end, construction
succeeds and `Family` reports the family of the inputs; only pairs that are
not IPv4-representable end up as IPv6 ranges, the IPv4 branch being tried
first. -/
theorem construction_family :
    (∀ s e, validInputs s e = true →
      ∃ r, New s e = some r ∧ famOf s = some r.Family ∧ famOf e = some r.Family) ∧
    (∀ s e r, New s e = some r → r.Family = .V6Family →
      to4 s = none ∧ to4 e = none) := by
  constructor
  · intro s e hv
    have hsome : (New s e).isSome = true := by
      rw [New_isSome_eq_validInputs, hv]
    obtain ⟨r, hr⟩ := Option.isSome_iff_exists.mp hsome
    refine ⟨r, hr, ?_⟩
    rcases New_eq_some_cases hr with ⟨rfl, hv4⟩ | ⟨rfl, _, hv6⟩
    · obtain ⟨s4, e4, hs4, he4, _⟩ := isV4RangeValid_iff.mp hv4
      constructor
      · simp [famOf, hs4, Range.Family]
      · simp [famOf, he4, Range.Family]
    · obtain ⟨hs0, he0, s16, e16, hs16, he16, _⟩ := isV6RangeValid_iff.mp hv6
      constructor
      · simp [famOf, hs0, hs16, Range.Family]
      · simp [famOf, he0, he16, Range.Family]
  · intro s e r hr h6
    rcases New_eq_some_cases hr with ⟨rfl, _⟩ | ⟨rfl, _, hv6⟩
    · simp [Range.Family] at h6
    · obtain ⟨hs0, he0, _, _, _, _, _⟩ := isV6RangeValid_iff.mp hv6
      exact ⟨hs0, he0⟩

/-- Witness: `construction_family` on a concrete IPv4 pair and a concrete
IPv6 pair. -/
theorem construction_family_witness :
    (validInputs [1, 2, 3, 4] [1, 2, 3, 5] = true ∧
      ∃ r, New [1, 2, 3, 4] [1, 2, 3, 5] = some r ∧
        famOf [1, 2, 3, 4] = some r.Family ∧ famOf [1, 2, 3, 5] = some r.Family) ∧
    (New [0, 0, 0, 0, 0, 0, 0, 0, 0, 0, 0, 0, 0, 0, 0, 1]
        [0, 0, 0, 0, 0, 0, 0, 0, 0, 0, 0, 0, 0, 0, 0, 2]
      = some (Range.v6Range [0, 0, 0, 0, 0, 0, 0, 0, 0, 0, 0, 0, 0, 0, 0, 1]
          [0, 0, 0, 0, 0, 0, 0, 0, 0, 0, 0, 0, 0, 0, 0, 2]) ∧
      to4 [0, 0, 0, 0, 0, 0, 0, 0, 0, 0, 0, 0, 0, 0, 0, 1] = none ∧
      to4 [0, 0, 0, 0, 0, 0, 0, 0, 0, 0, 0, 0, 0, 0, 0, 2] = none) :=
  ⟨⟨by decide, construction_family.1 [1, 2, 3, 4] [1, 2, 3, 5] (by decide)⟩,
   ⟨by decide, construction_family.2 [0, 0, 0, 0, 0, 0, 0, 0, 0, 0, 0, 0, 0, 0, 0, 1]
      [0, 0, 0, 0, 0, 0, 0, 0, 0, 0, 0, 0, 0, 0, 0, 2]
      (Range.v6Range [0, 0, 0, 0, 0, 0, 0, 0, 0, 0, 0, 0, 0, 0, 0, 1]
        [0, 0, 0, 0, 0, 0, 0, 0, 0, 0, 0, 0, 0, 0, 0, 2]) (by decide) (by decide)⟩⟩

/-- **C8**: an address representable as IPv4 but supplied in its IPv6-mapped
16-byte form is still classified as IPv4; the mapped 16-byte form and the
4-byte form of the same pair yield the same family. -/
theorem mapped_form_v4_family :
    (∀ s e r, New s e = some r → ((to4 s).isSome ∨ (to4 e).isSome) →
      r.Family = .V4Family) ∧
    (∀ a b : IP, a.length = 4 → b.length = 4 →
      (New (v4InV6Lead ++ a) (v4InV6Lead ++ b)).map Range.Family
          = (New a b).map Range.Family ∧
        ∀ r, New (v4InV6Lead ++ a) (v4InV6Lead ++ b) = some r →
          r.Family = .V4Family) := by
  constructor
  · intro s e r hr hsome
    rcases New_eq_some_cases hr with ⟨rfl, _⟩ | ⟨rfl, _, hv6⟩
    · rfl
    · obtain ⟨hs0, he0, _, _, _, _, _⟩ := isV6RangeValid_iff.mp hv6
      rcases hsome with hs | he
      · rw [hs0] at hs
        cases hs
      · rw [he0] at he
        cases he
  · intro a b ha hb
    have h1 := to4_append_lead ha
    have h2 := to4_append_lead hb
    have h3 := to4_of_length_four ha
    have h4 := to4_of_length_four hb
    have hv4 : isV4RangeValid (v4InV6Lead ++ a) (v4InV6Lead ++ b) = isV4RangeValid a b := by
      simp [isV4RangeValid, h1, h2, h3, h4]
    have hv6 : isV6RangeValid (v4InV6Lead ++ a) (v4InV6Lead ++ b) = false := by
      simp [isV6RangeValid, h1]
    have hv6' : isV6RangeValid a b = false := by
      simp [isV6RangeValid, h3]
    constructor
    · simp only [New, hv4, hv6, hv6']
      cases hc : isV4RangeValid a b <;> simp [hc, Range.Family]
    · intro r hr
      simp only [New, hv4, hv6] at hr
      split at hr
      next =>
        injection hr with hr
        rw [← hr]
        rfl
      next => simp at hr

/-- Witness: `mapped_form_v4_family` on the concrete mapped pair
`::ffff:192.168.1.1` – `::ffff:192.168.1.9`. -/
theorem mapped_form_v4_family_witness :
    (New [0, 0, 0, 0, 0, 0, 0, 0, 0, 0, 0xff, 0xff, 192, 168, 1, 1]
        [0, 0, 0, 0, 0, 0, 0, 0, 0, 0, 0xff, 0xff, 192, 168, 1, 9]
      = some (Range.v4Range [0, 0, 0, 0, 0, 0, 0, 0, 0, 0, 0xff, 0xff, 192, 168, 1, 1]
          [0, 0, 0, 0, 0, 0, 0, 0, 0, 0, 0xff, 0xff, 192, 168, 1, 9]) ∧
      (Range.v4Range [0, 0, 0, 0, 0, 0, 0, 0, 0, 0, 0xff, 0xff, 192, 168, 1, 1]
          [0, 0, 0, 0, 0, 0, 0, 0, 0, 0, 0xff, 0xff, 192, 168, 1, 9]).Family
        = .V4Family) ∧
    (New (v4InV6Lead ++ [192, 168, 1, 1]) (v4InV6Lead ++ [192, 168, 1, 9])).map Range.Family
      = (New [192, 168, 1, 1] [192, 168, 1, 9]).map Range.Family :=
  ⟨⟨by decide,
    mapped_form_v4_family.1 [0, 0, 0, 0, 0, 0, 0, 0, 0, 0, 0xff, 0xff, 192, 168, 1, 1]
      [0, 0, 0, 0, 0, 0, 0, 0, 0, 0, 0xff, 0xff, 192, 168, 1, 9] _ (by decide)
      (by decide)⟩,
   (mapped_form_v4_family.2 [192, 168, 1, 1] [192, 168, 1, 9] (by decide) (by decide)).1⟩

/-- **C10**: `Contains` compares the candidate's bytes exactly as supplied:
for the valid IPv4 range with 16-byte mapped boundaries
`::ffff:192.168.1.1` – `::ffff:192.168.1.10`, the numerically inside address
192.168.1.5 supplied in 4-byte form is reported as not contained, and
symmetrically for 4-byte boundaries with a 16-byte mapped candidate. -/
theorem contains_width_sensitive :
    (New [0, 0, 0, 0, 0, 0, 0, 0, 0, 0, 0xff, 0xff, 192, 168, 1, 1]
        [0, 0, 0, 0, 0, 0, 0, 0, 0, 0, 0xff, 0xff, 192, 168, 1, 10]
      = some (Range.v4Range [0, 0, 0, 0, 0, 0, 0, 0, 0, 0, 0xff, 0xff, 192, 168, 1, 1]
          [0, 0, 0, 0, 0, 0, 0, 0, 0, 0, 0xff, 0xff, 192, 168, 1, 10]) ∧
      (Range.v4Range [0, 0, 0, 0, 0, 0, 0, 0, 0, 0, 0xff, 0xff, 192, 168, 1, 1]
          [0, 0, 0, 0, 0, 0, 0, 0, 0, 0, 0xff, 0xff, 192, 168, 1, 10]).Family = .V4Family ∧
      beNat [192, 168, 1, 1] ≤ beNat [192, 168, 1, 5] ∧
      beNat [192, 168, 1, 5] ≤ beNat [192, 168, 1, 10] ∧
      (Range.v4Range [0, 0, 0, 0, 0, 0, 0, 0, 0, 0, 0xff, 0xff, 192, 168, 1, 1]
          [0, 0, 0, 0, 0, 0, 0, 0, 0, 0, 0xff, 0xff, 192, 168, 1, 10]).Contains
        [192, 168, 1, 5] = false) ∧
    (New [192, 168, 1, 1] [192, 168, 1, 10]
      = some (Range.v4Range [192, 168, 1, 1] [192, 168, 1, 10]) ∧
      (Range.v4Range [192, 168, 1, 1] [192, 168, 1, 10]).Contains
        [0, 0, 0, 0, 0, 0, 0, 0, 0, 0, 0xff, 0xff, 192, 168, 1, 5] = false) := by
  refine ⟨⟨?_, ?_, ?_, ?_, ?_⟩, ?_, ?_⟩ <;> decide

/-! ### String rendering: embedding of Go `net.IP.String` -/

/-- Embedding of Go `ubtoa`: decimal rendering of a byte value
(one, two or three digits, no padding). -/
def ubtoa (v : Nat) : String :=
  if v < 10 then String.mk [Char.ofNat (v + 48)]
  else if v < 100 then String.mk [Char.ofNat (v / 10 + 48), Char.ofNat (v % 10 + 48)]
  else String.mk
    [Char.ofNat (v / 100 + 48), Char.ofNat (v / 10 % 10 + 48), Char.ofNat (v % 10 + 48)]

/-- The dotted-decimal branch of Go `net.IP.String`, applied to the 4-byte
form: `ubtoa` for each byte with `'.'` separators. -/
def ipStringV4 (p4 : IP) : String :=
  ubtoa (p4.getD 0 0).val ++ "." ++ ubtoa (p4.getD 1 0).val ++ "."
    ++ ubtoa (p4.getD 2 0).val ++ "." ++ ubtoa (p4.getD 3 0).val

/-- Embedding of the Go constant `hexDigit = "0123456789abcdef"`. -/
def hexDigitChars : List Char := "0123456789abcdef".toList

/-- The digit-emitting loop of Go `appendHex` (`for j := 7; j >= 0; j--`):
the recursion argument counts the remaining iterations, so `appendHexLoop i 8`
runs `j = 7, 6, …, 0`; a digit is emitted once `i >> (j*4)` is positive. -/
def appendHexLoop (i : Nat) : Nat → List Char
  | 0 => []
  | j + 1 =>
    let v := i >>> (j * 4)
    (if 0 < v then [hexDigitChars.getD (v &&& 15) '0'] else []) ++ appendHexLoop i j

/-- Embedding of Go `appendHex`: lowercase hex without leading zeros,
`"0"` for zero. -/
def appendHex (i : Nat) : String :=
  if i = 0 then "0" else String.mk (appendHexLoop i 8)

/-- The 16-bit groups of an IPv6 address as computed in Go's rendering loop:
`(uint32(ip[i])<<8) | uint32(ip[i+1])` for `i = 0, 2, …`. -/
def hextets : IP → List Nat
  | a :: b :: rest => (a.val <<< 8 ||| b.val) :: hextets rest
  | _ => []

/-- The zero test Go's run-finding loop applies to each byte pair:
`ip[j] == 0 && ip[j+1] == 0`. -/
def zeroPairs : IP → List Bool
  | a :: b :: rest => (a.val == 0 && b.val == 0) :: zeroPairs rest
  | _ => []

/-- Length of the leading run of `true` entries (Go's inner
`for j < 16 && … { j += 2 }` loop, counted in pairs). -/
def innerRun : List Bool → Nat
  | true :: rest => innerRun rest + 1
  | _ => 0

/-- Embedding of the zero-run scan of Go `net.IP.String` (`e0`/`e1` in byte
indices, `-1` as the no-run sentinel); the byte pairs are abstracted to their
zero test, which is all the Go loop inspects.  The fuel argument bounds the
iteration count; the loop touches at least one pair per iteration, so any
fuel at least the list length is exact. -/
def scanLoop : Nat → List Bool → Nat → Int → Int → Int × Int
  | _, [], _, e0, e1 => (e0, e1)
  | 0, _ :: _, _, e0, e1 => (e0, e1)
  | fuel + 1, l, i, e0, e1 =>
    let run := innerRun l
    let j := i + 2 * run
    if 0 < run ∧ e1 - e0 < (j : Int) - (i : Int) then
      scanLoop fuel (l.drop (run + 1)) (j + 2) (i : Int) (j : Int)
    else
      scanLoop fuel (l.drop 1) (i + 2) e0 e1

/-- The complete zero-run selection of Go `net.IP.String`, including the
final `if e1-e0 <= 2` reset that refuses to compress a single zero group. -/
def zeroRunGo (zs : List Bool) : Int × Int :=
  let p := scanLoop 8 zs 0 (-1) (-1)
  if p.2 - p.1 ≤ 2 then (-1, -1) else p

/-- Embedding of the rendering loop of Go `net.IP.String`
(`for i := 0; i < 16; i += 2`), with byte index `i` and the selected run
`e0`/`e1`; fuel 9 covers the at most 8 iterations. -/
def renderLoop (gs : List Nat) (e0 e1 : Int) : Nat → Nat → String
  | _, 0 => ""
  | i, fuel + 1 =>
    if i < 16 then
      if (i : Int) = e0 then
        "::" ++
          (if 16 ≤ e1 then ""
           else appendHex (gs.getD (e1.toNat / 2) 0)
             ++ renderLoop gs e0 e1 (e1.toNat + 2) fuel)
      else
        (if 0 < i then ":" else "") ++ appendHex (gs.getD (i / 2) 0)
          ++ renderLoop gs e0 e1 (i + 2) fuel
    else ""

/-- The IPv6 branch of Go `net.IP.String`. -/
def ipStringV6 (ip : IP) : String :=
  let p := zeroRunGo (zeroPairs ip)
  renderLoop (hextets ip) p.1 p.2 0 9

/-- Embedding of Go `hexString` (used for invalid lengths): two lowercase
hex digits per byte. -/
def hexStringGo (ip : IP) : String :=
  String.mk (ip.foldr
    (fun b acc =>
      hexDigitChars.getD (b.val >>> 4) '0' :: hexDigitChars.getD (b.val &&& 15) '0' :: acc)
    [])

/-- Embedding of Go `net.IP.String`: `"<nil>"` for an empty slice, dotted
decimal when `To4` succeeds, `"?"`-prefixed hex for invalid lengths, and the
compressed colon-hex form for 16-byte IPv6 addresses. -/
def ipString (ip : IP) : String :=
  if ip.length = 0 then "<nil>"
  else
    match to4 ip with
    | some p4 => ipStringV4 p4
    | none => if ip.length ≠ 16 then "?" ++ hexStringGo ip else ipStringV6 ip

/-- Embedding of `v4Range.String` and `v6Range.String`:
`fmt.Sprintf("%s-%s", r.Start, r.End)`, where `%s` invokes
`net.IP.String` on the stored slices. -/
def Range.toString : Range → String
  | .v4Range s e => ipString s ++ "-" ++ ipString e
  | .v6Range s e => ipString s ++ "-" ++ ipString e

/-! ### Spec-side canonical text forms -/

/-- Spec-side definition: a lowercase hexadecimal digit. -/
def specHexChar (d : Nat) : Char :=
  if d < 10 then Char.ofNat (48 + d) else Char.ofNat (87 + d)

/-- Spec-side definition: lowercase hexadecimal rendering of a number with no
leading zeros (positional, most significant digit first). -/
def specHexStr (n : Nat) : String :=
  if _h : n < 16 then String.mk [specHexChar n]
  else specHexStr (n / 16) ++ String.mk [specHexChar (n % 16)]

/-- Spec-side definition: items joined by a separator. -/
def specJoinSep (sep : String) : List String → String
  | [] => ""
  | [x] => x
  | x :: y :: rest => x ++ sep ++ specJoinSep sep (y :: rest)

/-- Spec-side definition: dotted-decimal rendering of a 4-byte address. -/
def specDotted (p4 : IP) : String :=
  specJoinSep "." (p4.map (fun b => toString b.val))

/-- Spec-side definition: among the maximal runs of consecutive zero groups
of length at least two, the longest one, breaking ties towards the leftmost;
`none` when no zero run of length at least two exists. -/
def specBestRun (zs : List Bool) : Option (Nat × Nat) :=
  let candidates := (List.range zs.length).filterMap (fun s =>
    if (s = 0 ∨ zs.getD (s - 1) false = false) ∧ zs.getD s false = true then
      if 2 ≤ innerRun (zs.drop s) then some (s, innerRun (zs.drop s)) else none
    else none)
  candidates.foldl (fun best c =>
    match best with
    | none => some c
    | some b => if b.2 < c.2 then some c else some b) none

/-- The byte-index encoding of a chosen group run, as the scan reports it. -/
def encodeRun : Option (Nat × Nat) → Int × Int
  | none => (-1, -1)
  | some (s, len) => (2 * s, 2 * (s + len))

/-- Spec-side definition: shortest-form colon-hex rendering of a 16-byte
address — each group in lowercase hex without leading zeros, `':'`
separators, and the longest (leftmost on ties) run of at least two zero
groups compressed to `"::"`. -/
def specV6String (ip : IP) : String :=
  let gs := hextets ip
  match specBestRun (gs.map (fun g => g == 0)) with
  | none => specJoinSep ":" (gs.map specHexStr)
  | some (s, len) =>
      specJoinSep ":" ((gs.take s).map specHexStr) ++ "::"
        ++ specJoinSep ":" ((gs.drop (s + len)).map specHexStr)

/-- The Go zero-run scan agrees with the spec-side longest-leftmost choice on
every pattern of eight group-zero flags. -/
theorem scan_bridge : ∀ b0 b1 b2 b3 b4 b5 b6 b7 : Bool,
    zeroRunGo [b0, b1, b2, b3, b4, b5, b6, b7]
      = encodeRun (specBestRun [b0, b1, b2, b3, b4, b5, b6, b7]) := by
  decide

/-- A chosen run always has length at least 2 and fits within the 8 groups. -/
theorem specBestRun_bounds : ∀ b0 b1 b2 b3 b4 b5 b6 b7 : Bool,
    (match specBestRun [b0, b1, b2, b3, b4, b5, b6, b7] with
     | none => true
     | some (s, len) => decide (2 ≤ len ∧ s + len ≤ 8)) = true := by
  decide

/-! ### Equivalence of the Go renderer with the spec-side form -/

/-- `':'`-separated hex groups, with a separator before every element. -/
def sepCat : List Nat → String
  | [] => ""
  | g :: rest => ":" ++ appendHex g ++ sepCat rest

/-- `':'`-separated hex groups, with separators only between elements. -/
def headJoin : List Nat → String
  | [] => ""
  | g :: rest => appendHex g ++ sepCat rest

theorem headJoin_eq_specJoin (l : List Nat) :
    headJoin l = specJoinSep ":" (l.map appendHex) := by
  induction l with
  | nil => rfl
  | cons g rest ih =>
    cases rest with
    | nil => simp [headJoin, sepCat, specJoinSep]
    | cons y t =>
      simp only [headJoin, sepCat, specJoinSep, List.map_cons] at ih ⊢
      rw [← ih]
      simp [String.append_assoc]

theorem length_eight_destruct {α : Type} {l : List α} (hlen : l.length = 8) :
    ∃ b0 b1 b2 b3 b4 b5 b6 b7, l = [b0, b1, b2, b3, b4, b5, b6, b7] := by
  obtain ⟨b0, t0, d0, w0⟩ := exists_cons_of_length_succ hlen
  obtain ⟨b1, t1, d1, w1⟩ := exists_cons_of_length_succ w0
  obtain ⟨b2, t2, d2, w2⟩ := exists_cons_of_length_succ w1
  obtain ⟨b3, t3, d3, w3⟩ := exists_cons_of_length_succ w2
  obtain ⟨b4, t4, d4, w4⟩ := exists_cons_of_length_succ w3
  obtain ⟨b5, t5, d5, w5⟩ := exists_cons_of_length_succ w4
  obtain ⟨b6, t6, d6, w6⟩ := exists_cons_of_length_succ w5
  obtain ⟨b7, t7, d7, w7⟩ := exists_cons_of_length_succ w6
  have hnil : t7 = [] := List.eq_nil_of_length_eq_zero w7
  exact ⟨b0, b1, b2, b3, b4, b5, b6, b7,
    by rw [d0, d1, d2, d3,
      d4, d5, d6, d7, hnil]⟩

theorem byte_pair_lor (a b : Byte) : a.val <<< 8 ||| b.val = a.val * 256 + b.val := by
  rw [Nat.shiftLeft_eq]
  have hb : b.val < 2 ^ 8 := by
    have := b.isLt
    norm_num
  have h := mul_two_pow_lor 8 a.val b.val hb
  simpa using h

theorem hextets_length : (ip : IP) → (hextets ip).length = ip.length / 2
  | [] => rfl
  | [_] => by simp [hextets]
  | a :: b :: rest => by
    simp only [hextets, List.length_cons, hextets_length rest]
    omega

theorem hextets_lt : (ip : IP) → ∀ g ∈ hextets ip, g < 65536
  | [] => by simp [hextets]
  | [_] => by simp [hextets]
  | a :: b :: rest => by
    intro g hg
    simp only [hextets, List.mem_cons] at hg
    rcases hg with rfl | hg
    · have ha := a.isLt
      have hb := b.isLt
      rw [byte_pair_lor]
      omega
    · exact hextets_lt rest g hg

theorem zeroPairs_eq : (ip : IP) → zeroPairs ip = (hextets ip).map (fun g => g == 0)
  | [] => rfl
  | [_] => rfl
  | a :: b :: rest => by
    simp only [zeroPairs, hextets, List.map_cons, zeroPairs_eq rest]
    congr 1
    rw [byte_pair_lor, Bool.eq_iff_iff]
    simp only [Bool.and_eq_true, beq_iff_eq]
    omega

theorem renderLoop_no_run (gs : List Nat) (e0 e1 : Int) :
    ∀ (fuel k : Nat), gs.length = 8 → e0 < 2 * (k : Int) → 1 ≤ k → 8 - k < fuel →
      renderLoop gs e0 e1 (2 * k) fuel = sepCat (gs.drop k) := by
  intro fuel
  induction fuel with
  | zero =>
    intro k _ _ _ hf
    omega
  | succ fuel ih =>
    intro k hgs he hk hf
    by_cases hlt : 2 * k < 16
    · have hne : ¬ ((2 * k : Nat) : Int) = e0 := by push_cast; omega
      rw [renderLoop, if_pos hlt, if_neg hne, if_pos (by omega : 0 < 2 * k)]
      have hdiv : 2 * k / 2 = k := by omega
      have hsucc : 2 * k + 2 = 2 * (k + 1) := by ring
      rw [hdiv, hsucc, ih (k + 1) hgs (by omega) (by omega) (by omega)]
      have hklt : k < gs.length := by omega
      rw [List.drop_eq_getElem_cons hklt]
      simp [sepCat, List.getElem?_eq_getElem hklt, String.append_assoc]
    · rw [renderLoop, if_neg hlt]
      have hdrop : gs.drop k = [] := List.drop_eq_nil_of_le (by omega)
      simp [hdrop, sepCat]

theorem renderLoop_run (gs : List Nat) (s len : Nat) (hs2 : 2 ≤ len)
    (hle : s + len ≤ 8) :
    ∀ fuel k, gs.length = 8 → k ≤ s → 1 ≤ k → 8 - k < fuel →
      renderLoop gs (2 * s) (2 * (s + len)) (2 * k) fuel
        = sepCat ((gs.drop k).take (s - k)) ++ "::" ++ headJoin (gs.drop (s + len)) := by
  intro fuel
  induction fuel with
  | zero =>
    intro k _ _ _ hf
    omega
  | succ fuel ih =>
    intro k hgs hks hk hf
    have hlt : 2 * k < 16 := by omega
    by_cases hkeq : k = s
    · subst hkeq
      rw [renderLoop, if_pos hlt, if_pos (by push_cast; ring_nf :
        ((2 * k : Nat) : Int) = 2 * (k : Int))]
      by_cases hend : k + len = 8
      · rw [if_pos (by omega)]
        have hdrop : gs.drop (k + len) = [] := List.drop_eq_nil_of_le (by omega)
        simp [hdrop, headJoin, sepCat, List.take_zero]
      · have hlt2 : k + len < 8 := by omega
        rw [if_neg (by omega)]
        have htoNat : (2 * ((k : Int) + (len : Int))).toNat = 2 * (k + len) := by omega
        rw [htoNat]
        have hdiv : 2 * (k + len) / 2 = k + len := by omega
        have hsucc : 2 * (k + len) + 2 = 2 * ((k + len) + 1) := by ring
        rw [hdiv, hsucc,
          renderLoop_no_run gs _ _ fuel ((k + len) + 1) hgs (by push_cast; omega)
            (by omega) (by omega)]
        have hklt : k + len < gs.length := by omega
        rw [List.drop_eq_getElem_cons hklt]
        simp [sepCat, headJoin, List.getElem?_eq_getElem hklt, String.append_assoc,
          Nat.sub_self]
    · have hks' : k < s := by omega
      rw [renderLoop, if_pos hlt, if_neg (by push_cast; omega :
          ¬ ((2 * k : Nat) : Int) = 2 * (s : Int)),
        if_pos (by omega : 0 < 2 * k)]
      have hdiv : 2 * k / 2 = k := by omega
      have hsucc : 2 * k + 2 = 2 * (k + 1) := by ring
      rw [hdiv, hsucc, ih (k + 1) hgs (by omega) (by omega) (by omega)]
      have hklt : k < gs.length := by omega
      rw [List.drop_eq_getElem_cons hklt]
      have htake : s - k = (s - k - 1) + 1 := by omega
      rw [htake, List.take_succ_cons]
      simp [sepCat, List.getElem?_eq_getElem hklt, String.append_assoc, Nat.sub_sub]

/-! ### The Go hex renderer agrees with the spec-side positional form -/

theorem string_mk_append (a b : List Char) :
    String.mk (a ++ b) = String.mk a ++ String.mk b := rfl

theorem hexDigitChars_getD_eq (d : Nat) (hd : d < 16) :
    hexDigitChars.getD d '0' = specHexChar d := by
  interval_cases d <;> rfl

theorem mod16_and (i : Nat) : i &&& 15 = i % 16 := by
  have h := Nat.and_pow_two_sub_one_eq_mod i 4
  norm_num at h
  exact h

theorem appendHexLoop_skip (i j : Nat) (h : i < 16 ^ j) :
    appendHexLoop i (j + 1) = appendHexLoop i j := by
  have hz : i >>> (j * 4) = 0 := by
    rw [Nat.shiftRight_eq_div_pow]
    apply Nat.div_eq_of_lt
    calc i < 16 ^ j := h
    _ = 2 ^ (j * 4) := by
        rw [Nat.mul_comm j 4, pow_mul]
        norm_num
  simp [appendHexLoop, hz]

theorem appendHexLoop_peel (j : Nat) : ∀ i, 16 ^ j ≤ i →
    appendHexLoop i (j + 1)
      = appendHexLoop (i / 16) j ++ [hexDigitChars.getD (i &&& 15) '0'] := by
  induction j with
  | zero =>
    intro i hi
    have h1 : 0 < i := by simpa using hi
    simp [appendHexLoop, Nat.shiftRight_zero, h1]
  | succ j ih =>
    intro i hi
    have hpow : (16 : Nat) ^ (j + 1) = 16 ^ j * 16 := pow_succ 16 j
    have hdivle : 16 ^ j ≤ i / 16 := by
      rw [Nat.le_div_iff_mul_le (by norm_num)]
      omega
    have hkey : i >>> ((j + 1) * 4) = (i / 16) >>> (j * 4) := by
      rw [Nat.shiftRight_eq_div_pow, Nat.shiftRight_eq_div_pow, Nat.div_div_eq_div_mul]
      congr 1
      rw [Nat.add_mul, one_mul, pow_add]
      ring
    have hpos : 0 < i >>> ((j + 1) * 4) := by
      rw [Nat.shiftRight_eq_div_pow]
      have h2 : (2 : Nat) ^ ((j + 1) * 4) = 16 ^ (j + 1) := by
        rw [Nat.mul_comm (j + 1) 4, pow_mul]
        norm_num
      rw [h2]
      exact Nat.div_pos hi (by positivity)
    have unfL : appendHexLoop i ((j + 1) + 1)
        = (if 0 < i >>> ((j + 1) * 4)
            then [hexDigitChars.getD ((i >>> ((j + 1) * 4)) &&& 15) '0'] else [])
          ++ appendHexLoop i (j + 1) := rfl
    have unfR : appendHexLoop (i / 16) (j + 1)
        = (if 0 < (i / 16) >>> (j * 4)
            then [hexDigitChars.getD (((i / 16) >>> (j * 4)) &&& 15) '0'] else [])
          ++ appendHexLoop (i / 16) j := rfl
    rw [unfL, ih i (by omega), unfR, hkey]
    simp [List.append_assoc]

theorem specHexStr_digits (j : Nat) : ∀ i, 16 ^ j ≤ i → i < 16 ^ (j + 1) →
    String.mk (appendHexLoop i (j + 1)) = specHexStr i := by
  induction j with
  | zero =>
    intro i h1 h2
    have h16 : i < 16 := by simpa using h2
    have h0 : 0 < i := by simpa using h1
    rw [appendHexLoop_peel 0 i h1]
    simp only [appendHexLoop, List.nil_append]
    rw [mod16_and, Nat.mod_eq_of_lt h16, hexDigitChars_getD_eq i h16]
    rw [specHexStr, dif_pos h16]
  | succ j ih =>
    intro i h1 h2
    have h16le : (16 : Nat) ≤ i := by
      calc (16 : Nat) = 16 ^ 1 := by norm_num
      _ ≤ 16 ^ (j + 1) := Nat.pow_le_pow_right (by norm_num) (by omega)
      _ ≤ i := h1
    have hpow1 : (16 : Nat) ^ (j + 1) = 16 ^ j * 16 := pow_succ 16 j
    have hpow2 : (16 : Nat) ^ (j + 2) = 16 ^ (j + 1) * 16 := pow_succ 16 (j + 1)
    have hdiv1 : 16 ^ j ≤ i / 16 := by
      rw [Nat.le_div_iff_mul_le (by norm_num)]
      omega
    have hdiv2 : i / 16 < 16 ^ (j + 1) := by
      rw [Nat.div_lt_iff_lt_mul (by norm_num)]
      omega
    rw [appendHexLoop_peel (j + 1) i h1, string_mk_append, ih (i / 16) hdiv1 hdiv2]
    rw [mod16_and, hexDigitChars_getD_eq _ (Nat.mod_lt _ (by norm_num))]
    conv_rhs => rw [specHexStr]
    rw [dif_neg (by omega)]

theorem appendHex_eq_specHexStr (n : Nat) (h : n < 65536) :
    appendHex n = specHexStr n := by
  by_cases h0 : n = 0
  · subst h0
    rw [specHexStr]
    norm_num
    decide
  · have hn : 0 < n := by omega
    unfold appendHex
    rw [if_neg h0]
    have e7 : (16 : Nat) ^ 7 = 268435456 := by norm_num
    have e6 : (16 : Nat) ^ 6 = 16777216 := by norm_num
    have e5 : (16 : Nat) ^ 5 = 1048576 := by norm_num
    have e4 : (16 : Nat) ^ 4 = 65536 := by norm_num
    have e3 : (16 : Nat) ^ 3 = 4096 := by norm_num
    have e2 : (16 : Nat) ^ 2 = 256 := by norm_num
    have s7 := appendHexLoop_skip n 7 (by omega)
    have s6 := appendHexLoop_skip n 6 (by omega)
    have s5 := appendHexLoop_skip n 5 (by omega)
    have s4 := appendHexLoop_skip n 4 (by omega)
    rcases lt_or_ge n 16 with h1 | h1
    · have s3 := appendHexLoop_skip n 3 (by omega)
      have s2 := appendHexLoop_skip n 2 (by omega)
      have s1 := appendHexLoop_skip n 1 (by omega)
      rw [show (8 : Nat) = 7 + 1 from rfl, s7, s6, s5, s4, s3, s2, s1]
      exact specHexStr_digits 0 n (by omega) (by omega)
    · rcases lt_or_ge n 256 with h2 | h2
      · have s3 := appendHexLoop_skip n 3 (by omega)
        have s2 := appendHexLoop_skip n 2 (by omega)
        rw [show (8 : Nat) = 7 + 1 from rfl, s7, s6, s5, s4, s3, s2]
        exact specHexStr_digits 1 n (by omega) (by omega)
      · rcases lt_or_ge n 4096 with h3 | h3
        · have s3 := appendHexLoop_skip n 3 (by omega)
          rw [show (8 : Nat) = 7 + 1 from rfl, s7, s6, s5, s4, s3]
          exact specHexStr_digits 2 n (by omega) (by omega)
        · rw [show (8 : Nat) = 7 + 1 from rfl, s7, s6, s5, s4]
          exact specHexStr_digits 3 n (by omega) (by omega)

theorem map_appendHex_eq (l : List Nat) (hl : ∀ g ∈ l, g < 65536) :
    l.map appendHex = l.map specHexStr := by
  induction l with
  | nil => rfl
  | cons g t ih =>
    simp only [List.map_cons]
    rw [appendHex_eq_specHexStr g (hl g (by simp)),
      ih (fun x hx => hl x (by simp [hx]))]

/-! ### Dotted-decimal agreement -/

theorem ubtoa_eq_toString : ∀ b : Fin 256, ubtoa b.val = toString b.val := by
  decide

theorem ipStringV4_eq_specDotted (p4 : IP) (h : p4.length = 4) :
    ipStringV4 p4 = specDotted p4 := by
  obtain ⟨a, b, c, d, rfl⟩ := length_four_destruct h
  simp only [ipStringV4, specDotted, List.map_cons, List.map_nil, specJoinSep,
    List.getD_cons_zero, List.getD_cons_succ]
  rw [ubtoa_eq_toString a, ubtoa_eq_toString b, ubtoa_eq_toString c, ubtoa_eq_toString d]
  simp [String.append_assoc]

/-! ### Colon-hex agreement -/

theorem renderLoop_step (gs : List Nat) (e0 e1 : Int) (i fuel : Nat) :
    renderLoop gs e0 e1 i (fuel + 1)
      = if i < 16 then
          if (i : Int) = e0 then
            "::" ++
              (if 16 ≤ e1 then ""
               else appendHex (gs.getD (e1.toNat / 2) 0)
                 ++ renderLoop gs e0 e1 (e1.toNat + 2) fuel)
          else
            (if 0 < i then ":" else "") ++ appendHex (gs.getD (i / 2) 0)
              ++ renderLoop gs e0 e1 (i + 2) fuel
        else "" := rfl

theorem ipStringV6_eq_spec (ip : IP) (h16 : ip.length = 16) :
    ipStringV6 ip = specV6String ip := by
  have hglen : (hextets ip).length = 8 := by rw [hextets_length ip, h16]
  have hglt : ∀ g ∈ hextets ip, g < 65536 := hextets_lt ip
  have hzlen : ((hextets ip).map (fun g => g == 0)).length = 8 := by simp [hglen]
  obtain ⟨z0, z1, z2, z3, z4, z5, z6, z7, hz⟩ := length_eight_destruct hzlen
  have hzp : zeroPairs ip = [z0, z1, z2, z3, z4, z5, z6, z7] := by
    rw [zeroPairs_eq ip, hz]
  have hbounds := specBestRun_bounds z0 z1 z2 z3 z4 z5 z6 z7
  rw [show ipStringV6 ip
      = renderLoop (hextets ip) (zeroRunGo (zeroPairs ip)).1
          (zeroRunGo (zeroPairs ip)).2 0 9 from rfl,
    show specV6String ip
      = (match specBestRun ((hextets ip).map (fun g => g == 0)) with
        | none => specJoinSep ":" ((hextets ip).map specHexStr)
        | some (s, len) =>
            specJoinSep ":" (((hextets ip).take s).map specHexStr) ++ "::"
              ++ specJoinSep ":" (((hextets ip).drop (s + len)).map specHexStr))
        from rfl]
  rw [hzp, hz, scan_bridge z0 z1 z2 z3 z4 z5 z6 z7]
  cases hbr : specBestRun [z0, z1, z2, z3, z4, z5, z6, z7] with
  | none =>
    simp only [encodeRun]
    obtain ⟨g0, rest, hcons, hrlen⟩ := exists_cons_of_length_succ hglen
    rw [show (9 : Nat) = 8 + 1 from rfl, renderLoop_step]
    rw [if_pos (by norm_num), if_neg (by norm_num), if_neg (by norm_num)]
    rw [show (0 + 2 : Nat) = 2 * 1 from rfl,
      renderLoop_no_run (hextets ip) (-1) (-1) 8 1 hglen (by norm_num) (by norm_num)
        (by norm_num)]
    rw [hcons]
    simp only [Nat.zero_div, List.getD_cons_zero, List.drop_succ_cons, List.drop_zero,
      String.empty_append]
    have hh : appendHex g0 ++ sepCat rest = headJoin (g0 :: rest) := rfl
    rw [hh, ← hcons, headJoin_eq_specJoin, map_appendHex_eq _ hglt]
  | some c =>
    obtain ⟨s, len⟩ := c
    rw [hbr] at hbounds
    have hb : 2 ≤ len ∧ s + len ≤ 8 := by simpa using hbounds
    have hcast1 : (encodeRun (some (s, len))).1 = 2 * (s : Int) := by
      simp [encodeRun]
    have hcast2 : (encodeRun (some (s, len))).2 = 2 * ((s : Int) + (len : Int)) := by
      simp [encodeRun]
    rw [hcast1, hcast2]
    by_cases hs0 : s = 0
    · subst hs0
      rw [show (9 : Nat) = 8 + 1 from rfl, renderLoop_step]
      rw [if_pos (by norm_num), if_pos (by norm_num)]
      by_cases hlen8 : len = 8
      · subst hlen8
        rw [if_pos (by norm_num)]
        have hdrop : (hextets ip).drop (0 + 8) = [] := List.drop_eq_nil_of_le (by omega)
        simp [hdrop, specJoinSep, List.take_zero]
      · have hlen' : len < 8 := by omega
        rw [if_neg (by push_cast; omega)]
        have ht : (2 * ((0 : Nat) + (len : Nat) : Int)).toNat = 2 * len := by
          push_cast
          omega
        rw [ht]
        have hdiv : 2 * len / 2 = len := by omega
        have hsucc : 2 * len + 2 = 2 * (len + 1) := by ring
        rw [hdiv, hsucc,
          renderLoop_no_run (hextets ip) _ _ 8 (len + 1) hglen (by push_cast; omega)
            (by omega) (by omega)]
        show _ = specJoinSep ":" (((hextets ip).take 0).map specHexStr) ++ "::"
          ++ specJoinSep ":" (((hextets ip).drop (0 + len)).map specHexStr)
        have hklt : len < (hextets ip).length := by omega
        have ht2 : specJoinSep ":" (((hextets ip).drop len).map specHexStr)
            = headJoin ((hextets ip).drop len) := by
          rw [headJoin_eq_specJoin,
            map_appendHex_eq _ (fun g hg => hglt g (List.drop_subset _ _ hg))]
        rw [Nat.zero_add, ht2, List.drop_eq_getElem_cons hklt]
        simp [headJoin, sepCat, specJoinSep, List.getElem?_eq_getElem hklt,
          String.append_assoc]
    · have hs1 : 1 ≤ s := by omega
      rw [show (9 : Nat) = 8 + 1 from rfl, renderLoop_step]
      rw [if_pos (by norm_num), if_neg (by push_cast; omega), if_neg (by norm_num)]
      rw [show (0 + 2 : Nat) = 2 * 1 from rfl,
        renderLoop_run (hextets ip) s len hb.1 hb.2 8 1 hglen hs1 (by omega) (by omega)]
      show _ = specJoinSep ":" (((hextets ip).take s).map specHexStr) ++ "::"
        ++ specJoinSep ":" (((hextets ip).drop (s + len)).map specHexStr)
      obtain ⟨g0, rest, hcons, hrlen⟩ := exists_cons_of_length_succ hglen
      have htake : (hextets ip).take s = g0 :: rest.take (s - 1) := by
        calc (hextets ip).take s = (g0 :: rest).take ((s - 1) + 1) := by
              rw [hcons]
              congr 1
              omega
        _ = g0 :: rest.take (s - 1) := List.take_succ_cons
      have hp2 : specJoinSep ":" (((hextets ip).take s).map specHexStr)
          = headJoin ((hextets ip).take s) := by
        rw [headJoin_eq_specJoin,
          map_appendHex_eq _ (fun g hg => hglt g (List.take_subset _ _ hg))]
      have ht2 : specJoinSep ":" (((hextets ip).drop (s + len)).map specHexStr)
          = headJoin ((hextets ip).drop (s + len)) := by
        rw [headJoin_eq_specJoin,
          map_appendHex_eq _ (fun g hg => hglt g (List.drop_subset _ _ hg))]
      rw [hp2, ht2, htake]
      rw [hcons]
      simp [headJoin, sepCat, Nat.zero_div, List.getD_cons_zero, List.drop_succ_cons,
        List.drop_zero, String.empty_append, String.append_assoc]

theorem ipString_of_to4 {ip p4 : IP} (h : to4 ip = some p4) :
    ipString ip = ipStringV4 p4 := by
  have hne : ip.length ≠ 0 := by
    rcases to4_cases h with ⟨h4, _⟩ | ⟨rfl, _⟩
    · omega
    · simp [v4InV6Lead]
  simp [ipString, hne, h]

theorem ipString_of_v6 {ip : IP} (h4 : to4 ip = none) (h16 : ip.length = 16) :
    ipString ip = ipStringV6 ip := by
  simp [ipString, h16, h4]

/-- **C9**: for every valid range, `String()` is exactly the start address's
canonical text, a single `'-'`, then the end address's canonical text —
dotted decimal on the 4-byte form for IPv4 ranges, and shortest-form
colon-hex (longest-leftmost zero run of length at least two compressed to
`"::"`, lowercase hex groups without leading zeros) for IPv6 ranges. -/
theorem string_canonical {s e : IP} {r : Range} (h : New s e = some r) :
    Range.toString r = ipString s ++ "-" ++ ipString e ∧
    (r.Family = .V4Family →
      ∃ s4 e4, to4 s = some s4 ∧ to4 e = some e4 ∧
        ipString s = specDotted s4 ∧ ipString e = specDotted e4) ∧
    (r.Family = .V6Family →
      ipString s = specV6String s ∧ ipString e = specV6String e) := by
  rcases New_eq_some_cases h with ⟨rfl, hv⟩ | ⟨rfl, _, hv⟩
  · refine ⟨rfl, ?_, ?_⟩
    · intro _
      obtain ⟨s4, e4, hs4, he4, _⟩ := isV4RangeValid_iff.mp hv
      exact ⟨s4, e4, hs4, he4,
        by rw [ipString_of_to4 hs4, ipStringV4_eq_specDotted s4 (to4_length hs4)],
        by rw [ipString_of_to4 he4, ipStringV4_eq_specDotted e4 (to4_length he4)]⟩
    · intro hfam
      simp [Range.Family] at hfam
  · refine ⟨rfl, ?_, ?_⟩
    · intro hfam
      simp [Range.Family] at hfam
    · intro _
      obtain ⟨hs0, he0, s16, e16, hs16, he16, _⟩ := isV6RangeValid_iff.mp hv
      rcases to16_cases hs16 with ⟨hl4, _⟩ | ⟨hl16s, _⟩
      · rw [to4_of_length_four hl4] at hs0
        cases hs0
      rcases to16_cases he16 with ⟨hl4, _⟩ | ⟨hl16e, _⟩
      · rw [to4_of_length_four hl4] at he0
        cases he0
      exact ⟨by rw [ipString_of_v6 hs0 hl16s, ipStringV6_eq_spec s hl16s],
        by rw [ipString_of_v6 he0 hl16e, ipStringV6_eq_spec e hl16e]⟩

/-- Witness: `string_canonical` on the concrete range 10.0.0.1–10.0.0.9,
together with the rendered literal. -/
theorem string_canonical_witness :
    Range.toString (Range.v4Range [10, 0, 0, 1] [10, 0, 0, 9]) = "10.0.0.1-10.0.0.9" ∧
    (Range.toString (Range.v4Range [10, 0, 0, 1] [10, 0, 0, 9])
        = ipString [10, 0, 0, 1] ++ "-" ++ ipString [10, 0, 0, 9] ∧
      ((Range.v4Range [10, 0, 0, 1] [10, 0, 0, 9]).Family = .V4Family →
        ∃ s4 e4, to4 [10, 0, 0, 1] = some s4 ∧ to4 [10, 0, 0, 9] = some e4 ∧
          ipString [10, 0, 0, 1] = specDotted s4 ∧ ipString [10, 0, 0, 9] = specDotted e4) ∧
      ((Range.v4Range [10, 0, 0, 1] [10, 0, 0, 9]).Family = .V6Family →
        ipString [10, 0, 0, 1] = specV6String [10, 0, 0, 1] ∧
          ipString [10, 0, 0, 9] = specV6String [10, 0, 0, 9])) :=
  ⟨by decide, string_canonical (r := Range.v4Range [10, 0, 0, 1] [10, 0, 0, 9]) (by decide)⟩

end IPRange
